import Mathlib

/-!
Verification of the BracketMaster selection engine (src/extension.ts).

The TypeScript source works over a VS Code document; positions and offsets
are related by an order-preserving bijection (offsetAt/positionAt), so the
embedding works directly with linear character offsets (Nat) over the
document text (List Char).  Half-open machine integers do not occur; all
indices are natural numbers exactly as in the source.
-/

namespace BracketMaster

/-- A `vscode.Range` built from two offsets; `start`/`stop` are the offsets
of the range's start and end positions.  Every range the program builds is
an interior span of a matched pair. -/
structure Range where
  start : Nat
  stop : Nat
deriving DecidableEq

/-- `vscode.Range.contains(position)`: inclusive on both ends. -/
def Range.containsPos (r : Range) (p : Nat) : Bool :=
  decide (r.start ≤ p) && decide (p ≤ r.stop)

/-- `vscode.Range.contains(range)`: `r` contains `s` when `s` lies within `r`
(non-strictly on both ends). -/
def Range.containsRange (r s : Range) : Bool :=
  decide (r.start ≤ s.start) && decide (s.stop ≤ r.stop)

/-- A `vscode.Selection`, reduced to the offsets of its anchor and active
(cursor) positions. -/
structure Selection where
  anchor : Nat
  active : Nat
deriving DecidableEq

/-- The fixed bracket table `[['(', ')'], ['[', ']'], ['{', '}']]`. -/
def brackets : List (Char × Char) := [('(', ')'), ('[', ']'), ('{', '}')]

/-- Inner loop of `findEnclosingBrackets`: scan the remaining characters
`l = text.drop j` tracking `depth`; `depth++` on the opening char, `depth--`
on the closing char, answering the index where depth first returns to 0. -/
def findCloseAux (o c : Char) : List Char → Nat → Nat → Option Nat
  | [], _, _ => none
  | ch :: rest, j, depth =>
    if ch = o then findCloseAux o c rest (j + 1) (depth + 1)
    else if ch = c then
      if depth = 1 then some j else findCloseAux o c rest (j + 1) (depth - 1)
    else findCloseAux o c rest (j + 1) depth

/-- The forward scan of `findEnclosingBrackets` starting at offset `s` with a
given starting depth (the source starts it at `i + 1` with depth 1). -/
def findClose (text : List Char) (o c : Char) (s depth : Nat) : Option Nat :=
  findCloseAux o c (text.drop s) s depth

/-- The `(!bestRange || bestRange.contains(range))` test. -/
def acceptBest (best : Option Range) (r : Range) : Bool :=
  match best with
  | none => true
  | some b => b.containsRange r

/-- One iteration of the backward loop of `findEnclosingBrackets` at index
`i`: if `text[i]` is an opening bracket and its forward scan closes at `j`,
the candidate interior `(i+1, j)` replaces `best` when it contains the query
offset and is nested inside the current best. -/
def bracketStep (text : List Char) (offset i : Nat) (best : Option Range) : Option Range :=
  match text[i]? with
  | none => best
  | some ch =>
    match brackets.find? (fun pr => pr.1 == ch) with
    | none => best
    | some pr =>
      match findClose text pr.1 pr.2 (i + 1) 1 with
      | none => best
      | some j =>
        if (⟨i + 1, j⟩ : Range).containsPos offset && acceptBest best ⟨i + 1, j⟩
        then some ⟨i + 1, j⟩ else best

/-- The backward loop `for (let i = offset; i >= 0; i--)`, processing the
indices from `i` down to `0`. -/
def bracketScan (text : List Char) (offset : Nat) : Nat → Option Range → Option Range
  | 0, best => bracketStep text offset 0 best
  | i + 1, best => bracketScan text offset i (bracketStep text offset (i + 1) best)

/-- `findEnclosingBrackets(document, position)` over text and cursor offset. -/
def findEnclosingBrackets (text : List Char) (offset : Nat) : Option Range :=
  bracketScan text offset offset none

/-- The candidate produced at backward-scan index `i` alone (no previous
best): the interior of the balanced pair opened at `i`, provided it contains
the query offset. -/
def bracketCandAt (text : List Char) (offset i : Nat) : Option Range :=
  bracketStep text offset i none

/-- A recorded opening tag (`TagInfo` in the source): start index of `<`,
tag name, and `tagEnd` (`end` in the source), the offset just past `>`. -/
structure TagInfo where
  index : Nat
  name : List Char
  tagEnd : Nat
deriving DecidableEq

/-- JavaScript `\w`: ASCII letters, digits and underscore. -/
def isWordChar (c : Char) : Bool := c.isAlpha || c.isDigit || c = '_'

/-- Maximal leading run of word characters (the greedy `\w+`, possibly
empty here; emptiness is rejected by the caller). -/
def takeWordChars : List Char → List Char
  | [] => []
  | c :: rest => if isWordChar c then c :: takeWordChars rest else []

/-- Scan `l = text.drop p` for the first `'>'`, answering its index: the
`[^>]*>` part of the tag regexes consumes up to the first `'>'`. -/
def findGtAux : List Char → Nat → Option Nat
  | [], _ => none
  | c :: rest, p => if c = '>' then some p else findGtAux rest (p + 1)

/-- Index of the first `'>'` in `text` at or after `p`. -/
def findGtFrom (text : List Char) (p : Nat) : Option Nat :=
  findGtAux (text.drop p) p

/-- A match of the opening-tag regex `<(\w+)[^>]*>` anchored at index `p`:
`<`, a nonempty greedy word-character name, then any non-`>` characters up
to the first `>`.  Answers the captured name and the index just past `>`. -/
def matchOpenAt (text : List Char) (p : Nat) : Option (List Char × Nat) :=
  match text.drop p with
  | '<' :: rest =>
    if (takeWordChars rest).isEmpty then none
    else
      match findGtFrom text (p + 1 + (takeWordChars rest).length) with
      | some g => some (takeWordChars rest, g + 1)
      | none => none
  | _ => none

/-- Leftmost match of the opening-tag regex at or after position `p`
(`RegExp.exec` resuming from `lastIndex`); scans `l = text.drop p`. -/
def nextOpenAux (text : List Char) : List Char → Nat → Option (Nat × List Char × Nat)
  | [], _ => none
  | _ :: rest, p =>
    match matchOpenAt text p with
    | some r => some (p, r)
    | none => nextOpenAux text rest (p + 1)

/-- Leftmost opening-tag match at or after `pos`. -/
def nextOpen (text : List Char) (pos : Nat) : Option (Nat × List Char × Nat) :=
  nextOpenAux text (text.drop pos) pos

/-- The tokenization loop of `findEnclosingTags`: collect opening tags in
document order, resuming each search at the previous match's end, stopping
at the first match whose start index exceeds the cursor offset.  `fuel`
bounds the recursion; the wrapper passes `text.length + 1`, which is enough
because each match ends strictly beyond where its search began. -/
def collectTagsAux (text : List Char) (offset : Nat) : Nat → Nat → List TagInfo
  | 0, _ => []
  | fuel + 1, pos =>
    match nextOpen text pos with
    | none => []
    | some (p, nm, e) =>
      if offset < p then []
      else ⟨p, nm, e⟩ :: collectTagsAux text offset fuel e

/-- All opening tags recorded before the cursor (`tags` in the source). -/
def collectTags (text : List Char) (offset : Nat) : List TagInfo :=
  collectTagsAux text offset (text.length + 1) 0

/-- Boolean list prefix test (character-by-character). -/
def listPrefixOf : List Char → List Char → Bool
  | [], _ => true
  | _ :: _, [] => false
  | a :: as, b :: bs => a == b && listPrefixOf as bs

/-- A match of the first alternative `</name>` of the closing regex,
anchored at `p`: the exact text `</`, the name, `>`. -/
def matchCloseAt (text name : List Char) (p : Nat) : Bool :=
  listPrefixOf ('<' :: '/' :: (name ++ ['>'])) (text.drop p)

/-- A match of the second alternative `<name[^>]*>` of the closing regex,
anchored at `p`: `<`, then the name as a PREFIX of what follows (the regex
imposes no word boundary), then anything up to the first `>`.  Answers the
index just past that `>`. -/
def matchOpenNamedAt (text name : List Char) (p : Nat) : Option Nat :=
  if listPrefixOf ('<' :: name) (text.drop p) then
    match findGtFrom text (p + 1 + name.length) with
    | some g => some (g + 1)
    | none => none
  else none

/-- Leftmost match of `` `</name>|<name[^>]*>` `` scanning `l = text.drop p`:
at each position the closing alternative is tried first.  Answers
`(index, isClose, lastIndex after the match)`. -/
def nextTagTokAux (text name : List Char) : List Char → Nat → Option (Nat × Bool × Nat)
  | [], _ => none
  | _ :: rest, p =>
    if matchCloseAt text name p then some (p, true, p + name.length + 3)
    else
      match matchOpenNamedAt text name p with
      | some e => some (p, false, e)
      | none => nextTagTokAux text name rest (p + 1)

/-- Leftmost closing-regex match at or after `pos`. -/
def nextTagTok (text name : List Char) (pos : Nat) : Option (Nat × Bool × Nat) :=
  nextTagTokAux text name (text.drop pos) pos

/-- The `while ((match = closingTagRegex.exec(text)) !== null)` loop of
`findEnclosingTags`: depth decreases on `</name>` matches and increases on
`<name[^>]*>` matches; when depth first returns to 0 at a closing match its
start index is answered.  `fuel` bounds the recursion; the wrapper passes
`text.length + 1`, enough because every match advances `lastIndex`. -/
def tagSearchAux (text name : List Char) : Nat → Nat → Nat → Option Nat
  | 0, _, _ => none
  | fuel + 1, pos, depth =>
    match nextTagTok text name pos with
    | none => none
    | some (p, isClose, after) =>
      if isClose then
        if depth = 1 then some p
        else tagSearchAux text name fuel after (depth - 1)
      else tagSearchAux text name fuel after (depth + 1)

/-- The closing search for one recorded tag, from `pos` (the tag's end). -/
def tagCloseSearch (text name : List Char) (pos depth : Nat) : Option Nat :=
  tagSearchAux text name (text.length + 1) pos depth

/-- One iteration of the tag loop (`for (let i = tags.length - 1; ...)`):
if the closing search for `t` succeeds at `j`, the candidate interior
`(t.tagEnd, j)` replaces `best` when it contains the query offset and is
nested inside the current best. -/
def tagStep (text : List Char) (offset : Nat) (t : TagInfo) (best : Option Range) : Option Range :=
  match tagCloseSearch text t.name t.tagEnd 1 with
  | none => best
  | some j =>
    if (⟨t.tagEnd, j⟩ : Range).containsPos offset && acceptBest best ⟨t.tagEnd, j⟩
    then some ⟨t.tagEnd, j⟩ else best

/-- The candidate produced by recorded tag `t` alone (no previous best). -/
def tagCand (text : List Char) (offset : Nat) (t : TagInfo) : Option Range :=
  tagStep text offset t none

/-- `findEnclosingTags(document, position)`: recorded tags are processed
from the innermost (last recorded) to the outermost. -/
def findEnclosingTags (text : List Char) (offset : Nat) : Option Range :=
  ((collectTags text offset).reverse).foldl (fun best t => tagStep text offset t best) none

/-- Sign-faithful model of `vscode.Position.compareTo` on offsets. -/
def cmpNum (x y : Nat) : Int := (x : Int) - (y : Int)

/-- `compareRanges`: start offsets descending, then end offsets ascending. -/
def compareRanges (a b : Range) : Int :=
  let s := cmpNum b.start a.start
  if s ≠ 0 then s else cmpNum a.stop b.stop

/-- `candidates.sort(compareRanges)` for the lists the command builds
(at most two elements); a stable comparison sort swaps a two-element list
exactly when the comparator is positive on it. -/
def sortCands : List Range → List Range
  | [a, b] => if 0 < compareRanges a b then [b, a] else [a, b]
  | l => l

/-- The `candidates` array: tag result first, then bracket result. -/
def candidatesOf (text : List Char) (offset : Nat) : List Range :=
  (findEnclosingTags text offset).toList ++ (findEnclosingBrackets text offset).toList

/-- `candidates.filter(r => r.contains(position)).sort(compareRanges)[0]`. -/
def pickBest (offset : Nat) (cands : List Range) : Option Range :=
  (sortCands (cands.filter (fun r => r.containsPos offset))).head?

/-- The per-cursor body of the command: replace the selection by the winning
span, or keep the selection when there is none. -/
def selectEnclosing (text : List Char) (sel : Selection) : Selection :=
  match pickBest sel.active (candidatesOf text sel.active) with
  | some r => ⟨r.start, r.stop⟩
  | none => sel

/-- The whole command: one independent result slot per input selection. -/
def runCommand (text : List Char) (sels : List Selection) : List Selection :=
  sels.map (selectEnclosing text)

/-- Both matchers on one query, for statements about runs of queries. -/
def runMatchers (q : List Char × Nat) : Option Range × Option Range :=
  (findEnclosingTags q.1 q.2, findEnclosingBrackets q.1 q.2)

/-! ## Lemmas about the bracket matcher -/

theorem findCloseAux_some (o c : Char) :
    ∀ (l : List Char) (j d r : Nat), findCloseAux o c l j d = some r →
      j ≤ r ∧ l[r - j]? = some c := by
  intro l
  induction l with
  | nil => intro j d r h; simp [findCloseAux] at h
  | cons ch rest ih =>
    intro j d r h
    by_cases ho : ch = o
    · rw [findCloseAux, if_pos ho] at h
      obtain ⟨hj, hg⟩ := ih (j + 1) (d + 1) r h
      refine ⟨by omega, ?_⟩
      rw [show r - j = (r - (j + 1)) + 1 by omega, List.getElem?_cons_succ]
      exact hg
    · by_cases hc : ch = c
      · rw [findCloseAux, if_neg ho, if_pos hc] at h
        by_cases hd : d = 1
        · rw [if_pos hd] at h
          injection h with h
          subst h
          exact ⟨Nat.le_refl j, by simp [hc]⟩
        · rw [if_neg hd] at h
          obtain ⟨hj, hg⟩ := ih (j + 1) (d - 1) r h
          refine ⟨by omega, ?_⟩
          rw [show r - j = (r - (j + 1)) + 1 by omega, List.getElem?_cons_succ]
          exact hg
      · rw [findCloseAux, if_neg ho, if_neg hc] at h
        obtain ⟨hj, hg⟩ := ih (j + 1) d r h
        refine ⟨by omega, ?_⟩
        rw [show r - j = (r - (j + 1)) + 1 by omega, List.getElem?_cons_succ]
        exact hg

theorem findClose_some (text : List Char) (o c : Char) (s d r : Nat)
    (h : findClose text o c s d = some r) : s ≤ r ∧ text[r]? = some c := by
  obtain ⟨h1, h2⟩ := findCloseAux_some o c (text.drop s) s d r h
  refine ⟨h1, ?_⟩
  rw [List.getElem?_drop, show s + (r - s) = r by omega] at h2
  exact h2

theorem bracketCandAt_some (text : List Char) (offset i : Nat) (r : Range)
    (h : bracketCandAt text offset i = some r) :
    r.start = i + 1 ∧ r.containsPos offset = true ∧
      ∃ pr, pr ∈ brackets ∧ text[i]? = some pr.1 ∧
        findClose text pr.1 pr.2 (i + 1) 1 = some r.stop := by
  unfold bracketCandAt bracketStep at h
  split at h
  · simp at h
  next ch hch =>
    split at h
    · simp at h
    next pr hpr =>
      split at h
      · simp at h
      next j hj =>
        split at h
        next hcond =>
          injection h with h
          subst h
          have hcp : (⟨i + 1, j⟩ : Range).containsPos offset = true :=
            ((Bool.and_eq_true _ _).mp hcond).1
          refine ⟨rfl, hcp, pr, List.mem_of_find?_eq_some hpr, ?_, hj⟩
          have heq : pr.1 = ch := by simpa using List.find?_some hpr
          rw [hch, heq]
        · simp at h

theorem bracketCandAt_none_of_le (text : List Char) (offset i : Nat) (hle : offset ≤ i) :
    bracketCandAt text offset i = none := by
  unfold bracketCandAt bracketStep
  split
  · rfl
  next ch hch =>
    split
    · rfl
    next pr hpr =>
      split
      · rfl
      next j hj =>
        have hcp : (⟨i + 1, j⟩ : Range).containsPos offset = false := by
          simp only [Range.containsPos, Bool.and_eq_false_iff, decide_eq_false_iff_not]
          left; omega
        simp [hcp]

theorem bracketStep_some (text : List Char) (offset i : Nat) (best : Option Range) (r : Range)
    (h : bracketStep text offset i best = some r) :
    best = some r ∨ bracketCandAt text offset i = some r := by
  show best = some r ∨ bracketStep text offset i none = some r
  unfold bracketStep at h ⊢
  split at h
  next hch => exact Or.inl h
  next ch hch =>
    split at h
    next hpr => exact Or.inl h
    next pr hpr =>
      split at h
      next hj => exact Or.inl h
      next j hj =>
        split at h
        next hcond =>
          right
          have hcp : (⟨i + 1, j⟩ : Range).containsPos offset = true :=
            ((Bool.and_eq_true _ _).mp hcond).1
          rw [if_pos (by simp [acceptBest, hcp])]
          exact h
        · exact Or.inl h

theorem bracketStep_keep (text : List Char) (offset i : Nat) (b : Range)
    (hlt : i + 1 < b.start) :
    bracketStep text offset i (some b) = some b := by
  unfold bracketStep
  split
  · rfl
  next ch hch =>
    split
    · rfl
    next pr hpr =>
      split
      · rfl
      next j hj =>
        have hab : acceptBest (some b) ⟨i + 1, j⟩ = false := by
          simp only [acceptBest, Range.containsRange, Bool.and_eq_false_iff,
            decide_eq_false_iff_not]
          left; omega
        simp [hab]

theorem bracketScan_keep (text : List Char) (offset : Nat) :
    ∀ (i : Nat) (b : Range), i + 1 < b.start →
      bracketScan text offset i (some b) = some b := by
  intro i
  induction i with
  | zero => intro b hb; exact bracketStep_keep text offset 0 b hb
  | succ n ih =>
    intro b hb
    show bracketScan text offset n (bracketStep text offset (n + 1) (some b)) = some b
    rw [bracketStep_keep text offset (n + 1) b hb]
    exact ih b (by omega)

theorem bracketScan_none (text : List Char) (offset : Nat) :
    ∀ i, bracketScan text offset i none = none →
      ∀ i', i' ≤ i → bracketCandAt text offset i' = none := by
  intro i
  induction i with
  | zero =>
    intro h i' hi'
    have : i' = 0 := by omega
    subst this
    exact h
  | succ n ih =>
    intro h i' hi'
    rw [show bracketScan text offset (n + 1) none
        = bracketScan text offset n (bracketCandAt text offset (n + 1)) from rfl] at h
    cases hs : bracketCandAt text offset (n + 1) with
    | none =>
      rw [hs] at h
      rcases Nat.lt_or_ge i' (n + 1) with h1 | h1
      · exact ih h i' (by omega)
      · have : i' = n + 1 := by omega
        subst this; exact hs
    | some r0 =>
      rw [hs] at h
      have h1 := bracketCandAt_some text offset (n + 1) r0 hs
      have h2 := bracketScan_keep text offset n r0 (by omega)
      rw [h2] at h
      simp at h

theorem bracketScan_some (text : List Char) (offset : Nat) :
    ∀ i r, bracketScan text offset i none = some r →
      ∃ i', i' ≤ i ∧ bracketCandAt text offset i' = some r ∧
        ∀ i'', i' < i'' → i'' ≤ i → bracketCandAt text offset i'' = none := by
  intro i
  induction i with
  | zero =>
    intro r h
    exact ⟨0, Nat.le_refl 0, h, fun i'' h1 h2 => absurd h1 (by omega)⟩
  | succ n ih =>
    intro r h
    rw [show bracketScan text offset (n + 1) none
        = bracketScan text offset n (bracketCandAt text offset (n + 1)) from rfl] at h
    cases hs : bracketCandAt text offset (n + 1) with
    | none =>
      rw [hs] at h
      obtain ⟨i', hle, hc, hnone⟩ := ih r h
      refine ⟨i', by omega, hc, ?_⟩
      intro i'' hgt hle2
      rcases Nat.lt_or_ge i'' (n + 1) with h1 | h1
      · exact hnone i'' hgt (by omega)
      · have : i'' = n + 1 := by omega
        subst this; exact hs
    | some r0 =>
      rw [hs] at h
      have h1 := bracketCandAt_some text offset (n + 1) r0 hs
      have h2 := bracketScan_keep text offset n r0 (by omega)
      rw [h2] at h
      injection h with h3
      subst h3
      exact ⟨n + 1, Nat.le_refl _, hs, fun i'' hgt hle2 => absurd hgt (by omega)⟩

theorem findEnclosingBrackets_some (text : List Char) (offset : Nat) (r : Range)
    (h : findEnclosingBrackets text offset = some r) :
    ∃ i, bracketCandAt text offset i = some r ∧
      ∀ j, i < j → bracketCandAt text offset j = none := by
  obtain ⟨i', _, hc, hnone⟩ := bracketScan_some text offset offset r h
  refine ⟨i', hc, ?_⟩
  intro j hj
  rcases Nat.lt_or_ge offset j with h1 | h1
  · exact bracketCandAt_none_of_le text offset j (by omega)
  · exact hnone j hj (by omega)

theorem findEnclosingBrackets_none (text : List Char) (offset : Nat)
    (h : findEnclosingBrackets text offset = none) :
    ∀ i, bracketCandAt text offset i = none := by
  intro i
  rcases Nat.lt_or_ge i (offset + 1) with h1 | h1
  · exact bracketScan_none text offset offset h i (by omega)
  · exact bracketCandAt_none_of_le text offset i (by omega)

theorem findEnclosingBrackets_contains (text : List Char) (offset : Nat) (r : Range)
    (h : findEnclosingBrackets text offset = some r) : r.containsPos offset = true := by
  obtain ⟨i, hc, -⟩ := findEnclosingBrackets_some text offset r h
  exact (bracketCandAt_some text offset i r hc).2.1

/-! ## Lemmas about the tag matcher -/

theorem findGtAux_some : ∀ (l : List Char) (p g : Nat), findGtAux l p = some g → p ≤ g := by
  intro l
  induction l with
  | nil => intro p g h; simp [findGtAux] at h
  | cons c rest ih =>
    intro p g h
    rw [findGtAux] at h
    split at h
    · injection h with h; omega
    · have := ih (p + 1) g h; omega

theorem matchOpenAt_lt (text : List Char) (p : Nat) (nm : List Char) (e : Nat)
    (h : matchOpenAt text p = some (nm, e)) : p < e := by
  unfold matchOpenAt at h
  split at h
  next rest hdrop =>
    split at h
    · simp at h
    next hne =>
      split at h
      next g hg =>
        injection h with h
        injection h with h1 h2
        have := findGtAux_some (text.drop (p + 1 + (takeWordChars rest).length))
          (p + 1 + (takeWordChars rest).length) g hg
        omega
      · simp at h
  next => simp at h

theorem nextOpenAux_some (text : List Char) :
    ∀ (l : List Char) (p q : Nat) (nm : List Char) (e : Nat),
      nextOpenAux text l p = some (q, nm, e) →
        p ≤ q ∧ matchOpenAt text q = some (nm, e) := by
  intro l
  induction l with
  | nil => intro p q nm e h; simp [nextOpenAux] at h
  | cons c rest ih =>
    intro p q nm e h
    rw [nextOpenAux] at h
    split at h
    next r hr =>
      injection h with h
      injection h with h1 h2
      subst h1
      rw [h2] at hr
      exact ⟨Nat.le_refl _, hr⟩
    next hnone =>
      have := ih (p + 1) q nm e h
      exact ⟨by omega, this.2⟩

theorem nextOpen_some (text : List Char) (pos q : Nat) (nm : List Char) (e : Nat)
    (h : nextOpen text pos = some (q, nm, e)) :
    pos ≤ q ∧ matchOpenAt text q = some (nm, e) :=
  nextOpenAux_some text (text.drop pos) pos q nm e h

theorem collectTagsAux_mem (text : List Char) (offset : Nat) :
    ∀ (fuel pos : Nat) (t : TagInfo), t ∈ collectTagsAux text offset fuel pos →
      pos ≤ t.index ∧ t.index ≤ offset ∧ pos < t.tagEnd ∧
        matchOpenAt text t.index = some (t.name, t.tagEnd) := by
  intro fuel
  induction fuel with
  | zero => intro pos t h; simp [collectTagsAux] at h
  | succ n ih =>
    intro pos t h
    rw [collectTagsAux] at h
    split at h
    · simp at h
    next p nm e hnext =>
      split at h
      · simp at h
      next hle =>
        obtain ⟨hp, hm⟩ := nextOpen_some text pos p nm e hnext
        have hpe : p < e := matchOpenAt_lt text p nm e hm
        rcases List.mem_cons.mp h with h1 | h1
        · subst h1
          refine ⟨hp, ?_, ?_, hm⟩
          · show p ≤ offset; omega
          · show pos < e; omega
        · obtain ⟨h2, h3, h4, h5⟩ := ih e t h1
          exact ⟨by omega, h3, by omega, h5⟩

theorem collectTagsAux_pairwise (text : List Char) (offset : Nat) :
    ∀ (fuel pos : Nat),
      List.Pairwise (fun a b => a.tagEnd < b.tagEnd) (collectTagsAux text offset fuel pos) := by
  intro fuel
  induction fuel with
  | zero => intro pos; simp [collectTagsAux]
  | succ n ih =>
    intro pos
    rw [collectTagsAux]
    split
    · exact List.Pairwise.nil
    next p nm e hnext =>
      split
      · exact List.Pairwise.nil
      next hle =>
        refine List.pairwise_cons.mpr ⟨?_, ih e⟩
        intro t ht
        exact (collectTagsAux_mem text offset n e t ht).2.2.1

theorem matchOpenNamedAt_lt (text name : List Char) (p e : Nat)
    (h : matchOpenNamedAt text name p = some e) : p < e := by
  unfold matchOpenNamedAt at h
  split at h
  · split at h
    next g hg =>
      injection h with h
      have := findGtAux_some (text.drop (p + 1 + name.length)) (p + 1 + name.length) g hg
      omega
    · simp at h
  · simp at h

theorem nextTagTokAux_some (text name : List Char) :
    ∀ (l : List Char) (p q : Nat) (isC : Bool) (a : Nat),
      nextTagTokAux text name l p = some (q, isC, a) →
        p ≤ q ∧ q < a ∧ (isC = true → matchCloseAt text name q = true) ∧
          (isC = false → matchOpenNamedAt text name q = some a) := by
  intro l
  induction l with
  | nil => intro p q isC a h; simp [nextTagTokAux] at h
  | cons c rest ih =>
    intro p q isC a h
    rw [nextTagTokAux] at h
    split at h
    next hclose =>
      injection h with h
      injection h with h1 h2
      injection h2 with h2 h3
      subst h1; subst h2; subst h3
      exact ⟨Nat.le_refl _, by omega, fun _ => hclose, fun hx => Bool.noConfusion hx⟩
    next hnotclose =>
      split at h
      next e hopen =>
        injection h with h
        injection h with h1 h2
        injection h2 with h2 h3
        subst h1; subst h2; subst h3
        exact ⟨Nat.le_refl _, matchOpenNamedAt_lt text name _ _ hopen,
          fun hx => Bool.noConfusion hx, fun _ => hopen⟩
      next hnone =>
        obtain ⟨h1, h2, h3, h4⟩ := ih (p + 1) q isC a h
        exact ⟨by omega, h2, h3, h4⟩

theorem nextTagTok_some (text name : List Char) (pos q : Nat) (isC : Bool) (a : Nat)
    (h : nextTagTok text name pos = some (q, isC, a)) :
    pos ≤ q ∧ q < a ∧ (isC = true → matchCloseAt text name q = true) ∧
      (isC = false → matchOpenNamedAt text name q = some a) :=
  nextTagTokAux_some text name (text.drop pos) pos q isC a h

theorem tagSearchAux_some (text name : List Char) :
    ∀ (fuel pos depth j : Nat), tagSearchAux text name fuel pos depth = some j →
      pos ≤ j ∧ matchCloseAt text name j = true := by
  intro fuel
  induction fuel with
  | zero => intro pos depth j h; simp [tagSearchAux] at h
  | succ n ih =>
    intro pos depth j h
    rw [tagSearchAux] at h
    split at h
    · simp at h
    next p isC after hnext =>
      obtain ⟨h1, h2, h3, h4⟩ := nextTagTok_some text name pos p isC after hnext
      split at h
      next hisC =>
        split at h
        next hd =>
          injection h with h; subst h
          exact ⟨h1, h3 hisC⟩
        next hd =>
          obtain ⟨h5, h6⟩ := ih after (depth - 1) j h
          exact ⟨by omega, h6⟩
      next hisC =>
        obtain ⟨h5, h6⟩ := ih after (depth + 1) j h
        exact ⟨by omega, h6⟩

theorem tagCloseSearch_some (text name : List Char) (pos depth j : Nat)
    (h : tagCloseSearch text name pos depth = some j) :
    pos ≤ j ∧ matchCloseAt text name j = true :=
  tagSearchAux_some text name (text.length + 1) pos depth j h

theorem tagCand_some (text : List Char) (offset : Nat) (t : TagInfo) (r : Range)
    (h : tagCand text offset t = some r) :
    r.start = t.tagEnd ∧ r.containsPos offset = true ∧
      tagCloseSearch text t.name t.tagEnd 1 = some r.stop := by
  unfold tagCand tagStep at h
  split at h
  · simp at h
  next j hj =>
    split at h
    next hcond =>
      injection h with h; subst h
      exact ⟨rfl, ((Bool.and_eq_true _ _).mp hcond).1, hj⟩
    · simp at h

theorem tagStep_some (text : List Char) (offset : Nat) (t : TagInfo) (best : Option Range)
    (r : Range) (h : tagStep text offset t best = some r) :
    best = some r ∨ tagCand text offset t = some r := by
  show best = some r ∨ tagStep text offset t none = some r
  unfold tagStep at h ⊢
  split at h
  next hj => exact Or.inl h
  next j hj =>
    split at h
    next hcond =>
      right
      have hcp : (⟨t.tagEnd, j⟩ : Range).containsPos offset = true :=
        ((Bool.and_eq_true _ _).mp hcond).1
      rw [if_pos (by simp [acceptBest, hcp])]
      exact h
    · exact Or.inl h

theorem tagStep_keep (text : List Char) (offset : Nat) (t : TagInfo) (b : Range)
    (hlt : t.tagEnd < b.start) :
    tagStep text offset t (some b) = some b := by
  unfold tagStep
  split
  · rfl
  next j hj =>
    have hab : acceptBest (some b) ⟨t.tagEnd, j⟩ = false := by
      simp only [acceptBest, Range.containsRange, Bool.and_eq_false_iff,
        decide_eq_false_iff_not]
      left; omega
    simp [hab]

theorem tagFold_keep (text : List Char) (offset : Nat) :
    ∀ (ts : List TagInfo) (b : Range), (∀ t ∈ ts, t.tagEnd < b.start) →
      ts.foldl (fun best t => tagStep text offset t best) (some b) = some b := by
  intro ts
  induction ts with
  | nil => intro b _; rfl
  | cons t rest ih =>
    intro b hb
    rw [List.foldl_cons, tagStep_keep text offset t b (hb t (List.mem_cons_self t rest))]
    exact ih b (fun t' ht' => hb t' (List.mem_cons_of_mem t ht'))

theorem tagFold_some (text : List Char) (offset : Nat) :
    ∀ (ts : List TagInfo) (best : Option Range) (r : Range),
      ts.foldl (fun best t => tagStep text offset t best) best = some r →
        best = some r ∨ ∃ t ∈ ts, tagCand text offset t = some r := by
  intro ts
  induction ts with
  | nil => intro best r h; exact Or.inl h
  | cons t rest ih =>
    intro best r h
    rw [List.foldl_cons] at h
    rcases ih (tagStep text offset t best) r h with h1 | h1
    · rcases tagStep_some text offset t best r h1 with h2 | h2
      · exact Or.inl h2
      · exact Or.inr ⟨t, List.mem_cons_self t rest, h2⟩
    · obtain ⟨t', ht', hc⟩ := h1
      exact Or.inr ⟨t', List.mem_cons_of_mem t ht', hc⟩

theorem tagFold_max (text : List Char) (offset : Nat) :
    ∀ (ts : List TagInfo) (r : Range),
      List.Pairwise (fun a b => b.tagEnd < a.tagEnd) ts →
      ts.foldl (fun best t => tagStep text offset t best) none = some r →
        (∃ t ∈ ts, tagCand text offset t = some r) ∧
          ∀ t ∈ ts, ∀ r', tagCand text offset t = some r' → r'.start ≤ r.start := by
  intro ts
  induction ts with
  | nil => intro r _ h; simp at h
  | cons t rest ih =>
    intro r hpw h
    rw [List.foldl_cons] at h
    obtain ⟨hhead, htail⟩ := List.pairwise_cons.mp hpw
    cases hc : tagCand text offset t with
    | none =>
      rw [show tagStep text offset t none = tagCand text offset t from rfl, hc] at h
      obtain ⟨⟨t', ht', hc'⟩, hmax⟩ := ih r htail h
      refine ⟨⟨t', List.mem_cons_of_mem t ht', hc'⟩, ?_⟩
      intro t'' ht'' r' hr'
      rcases List.mem_cons.mp ht'' with h1 | h1
      · subst h1; rw [hc] at hr'; simp at hr'
      · exact hmax t'' h1 r' hr'
    | some r0 =>
      rw [show tagStep text offset t none = tagCand text offset t from rfl, hc] at h
      have hstart := (tagCand_some text offset t r0 hc).1
      have hkeep := tagFold_keep text offset rest r0
        (by intro t' ht'; rw [hstart]; exact hhead t' ht')
      rw [hkeep] at h
      injection h with h; subst h
      refine ⟨⟨t, List.mem_cons_self t rest, hc⟩, ?_⟩
      intro t'' ht'' r' hr'
      rcases List.mem_cons.mp ht'' with h1 | h1
      · subst h1; rw [hc] at hr'; injection hr' with hr'; subst hr'; exact Nat.le_refl _
      · have h2 := (tagCand_some text offset t'' r' hr').1
        have h3 := hhead t'' h1
        rw [h2, hstart]; omega

theorem findEnclosingTags_some (text : List Char) (offset : Nat) (r : Range)
    (h : findEnclosingTags text offset = some r) :
    (∃ t ∈ collectTags text offset, tagCand text offset t = some r) ∧
      ∀ t ∈ collectTags text offset, ∀ r', tagCand text offset t = some r' →
        r'.start ≤ r.start := by
  unfold findEnclosingTags at h
  have hpw : List.Pairwise (fun a b => b.tagEnd < a.tagEnd)
      (collectTags text offset).reverse := by
    rw [List.pairwise_reverse]
    exact collectTagsAux_pairwise text offset (text.length + 1) 0
  obtain ⟨⟨t, ht, hc⟩, hmax⟩ := tagFold_max text offset (collectTags text offset).reverse r hpw h
  refine ⟨⟨t, List.mem_reverse.mp ht, hc⟩, ?_⟩
  intro t' ht' r' hr'
  exact hmax t' (List.mem_reverse.mpr ht') r' hr'

theorem findEnclosingTags_contains (text : List Char) (offset : Nat) (r : Range)
    (h : findEnclosingTags text offset = some r) : r.containsPos offset = true := by
  obtain ⟨⟨t, ht, hc⟩, -⟩ := findEnclosingTags_some text offset r h
  exact (tagCand_some text offset t r hc).2.1

/-! ## Lemmas about the selector -/

theorem containsPos_true_iff (r : Range) (p : Nat) :
    r.containsPos p = true ↔ r.start ≤ p ∧ p ≤ r.stop := by
  simp [Range.containsPos]

theorem compareRanges_pos_iff (a b : Range) :
    0 < compareRanges a b ↔ (a.start < b.start ∨ (a.start = b.start ∧ b.stop < a.stop)) := by
  unfold compareRanges cmpNum
  by_cases h : ((b.start : Int) - (a.start : Int) ≠ 0)
  · rw [if_pos h]; omega
  · rw [if_neg h]; omega

theorem sortCands_head_mem :
    ∀ (l : List Range), l ≠ [] → ∃ x ∈ l, (sortCands l).head? = some x := by
  intro l hl
  match l with
  | [] => exact absurd rfl hl
  | [x] => exact ⟨x, by simp, rfl⟩
  | [x, y] =>
    by_cases hc : 0 < compareRanges x y
    · exact ⟨y, by simp, by simp [sortCands, hc]⟩
    · exact ⟨x, by simp, by simp [sortCands, hc]⟩
  | x :: y :: z :: rest => exact ⟨x, by simp, rfl⟩

/-! ## The claims -/

/-- C1: any span returned by the bracket matcher or the tag matcher satisfies
`startOffset ≤ queryOffset ≤ endOffset`, and is the interior of a balanced
pair: scanning from just after its opening delimiter (resp. opening tag) with
depth starting at 1, the depth first returns to 0 exactly at the closing
delimiter (resp. closing tag) that bounds the span. -/
theorem spec_C1 (text : List Char) (offset : Nat) :
    (∀ r, findEnclosingBrackets text offset = some r →
      r.start ≤ offset ∧ offset ≤ r.stop ∧
        ∃ pr, pr ∈ brackets ∧ 0 < r.start ∧ text[r.start - 1]? = some pr.1 ∧
          findClose text pr.1 pr.2 r.start 1 = some r.stop ∧
          text[r.stop]? = some pr.2) ∧
    (∀ r, findEnclosingTags text offset = some r →
      r.start ≤ offset ∧ offset ≤ r.stop ∧
        ∃ p nm, matchOpenAt text p = some (nm, r.start) ∧
          tagCloseSearch text nm r.start 1 = some r.stop ∧
          matchCloseAt text nm r.stop = true) := by
  constructor
  · intro r h
    obtain ⟨i, hc, -⟩ := findEnclosingBrackets_some text offset r h
    obtain ⟨hstart, hcp, pr, hmem, hch, hclose⟩ := bracketCandAt_some text offset i r hc
    obtain ⟨h1, h2⟩ := (containsPos_true_iff r offset).mp hcp
    refine ⟨h1, h2, pr, hmem, by omega, ?_, ?_, ?_⟩
    · rw [hstart]; simpa using hch
    · rw [hstart]; exact hclose
    · exact (findClose_some text pr.1 pr.2 (i + 1) 1 r.stop hclose).2
  · intro r h
    obtain ⟨⟨t, ht, hc⟩, -⟩ := findEnclosingTags_some text offset r h
    obtain ⟨hstart, hcp, hsearch⟩ := tagCand_some text offset t r hc
    obtain ⟨h1, h2⟩ := (containsPos_true_iff r offset).mp hcp
    obtain ⟨-, -, -, hopen⟩ := collectTagsAux_mem text offset (text.length + 1) 0 t ht
    refine ⟨h1, h2, t.index, t.name, ?_, ?_, ?_⟩
    · rw [hstart]; exact hopen
    · rw [hstart]; exact hsearch
    · exact (tagCloseSearch_some text t.name t.tagEnd 1 r.stop hsearch).2

/-- C2: the bracket matcher returns the candidate produced at the greatest
backward-scan index — the interior of the innermost balanced bracket pair
whose interior contains the offset — or none when no index produces a
candidate; on `{ [ ( x ) ] }` with the cursor at `x` it returns the interior
of `( x )` even though the outer `[ ]` and `{ }` pairs also produce
enclosing candidates. -/
theorem spec_C2 (text : List Char) (offset : Nat) :
    (∀ r, findEnclosingBrackets text offset = some r →
      ∃ i, bracketCandAt text offset i = some r ∧
        ∀ j, i < j → bracketCandAt text offset j = none) ∧
    (findEnclosingBrackets text offset = none →
      ∀ i, bracketCandAt text offset i = none) ∧
    findEnclosingBrackets (String.toList "{ [ ( x ) ] }") 6 = some ⟨5, 8⟩ ∧
    bracketCandAt (String.toList "{ [ ( x ) ] }") 6 4 = some ⟨5, 8⟩ ∧
    bracketCandAt (String.toList "{ [ ( x ) ] }") 6 2 = some ⟨3, 10⟩ ∧
    bracketCandAt (String.toList "{ [ ( x ) ] }") 6 0 = some ⟨1, 12⟩ := by
  refine ⟨findEnclosingBrackets_some text offset, findEnclosingBrackets_none text offset,
    ?_, ?_, ?_, ?_⟩ <;> decide

/-- C3: the claim says the tag matcher's forward search increments depth
exactly on opening tags with the same name and that differently named opening
tags never change the depth.  The code's regex `<name[^>]*>` instead also
matches any opening tag whose name merely EXTENDS the searched name: in
`<a>x<ab></a>` the search for `<a>` (interior starting at 3) treats `<ab>`
(an opening tag named `ab`) at index 4 as a reopening of `a`, so depth never
returns to 0 even though the exact closing tag `</a>` sits at index 8 and no
opening tag named exactly `a` occurs in between; the matcher therefore finds
no span where the claim requires the span `(3, 8)`. -/
theorem spec_C3 :
    nextTagTok (String.toList "<a>x<ab></a>") (String.toList "a") 3 = some (4, false, 8) ∧
    matchOpenAt (String.toList "<a>x<ab></a>") 4 = some (String.toList "ab", 8) ∧
    matchCloseAt (String.toList "<a>x<ab></a>") (String.toList "a") 8 = true ∧
    (∀ p ∈ List.range 8, 3 ≤ p → ∀ e ∈ List.range 13,
      matchOpenAt (String.toList "<a>x<ab></a>") p ≠ some (String.toList "a", e)) ∧
    tagCloseSearch (String.toList "<a>x<ab></a>") (String.toList "a") 3 1 = none ∧
    findEnclosingTags (String.toList "<a>x<ab></a>") 3 = none := by
  refine ⟨?_, ?_, ?_, ?_, ?_, ?_⟩ <;> decide

/-- C4: among candidate spans containing the query offset the selector picks
the first under the order start-descending then end-ascending: with two
contained candidates the later-starting span wins, and on equal starts the
earlier-ending span wins. -/
theorem spec_C4 (a b : Range) (offset : Nat)
    (ha : a.containsPos offset = true) (hb : b.containsPos offset = true) :
    (a.start < b.start → pickBest offset [a, b] = some b) ∧
    (b.start < a.start → pickBest offset [a, b] = some a) ∧
    (a.start = b.start → a.stop ≤ b.stop → pickBest offset [a, b] = some a) ∧
    (a.start = b.start → b.stop < a.stop → pickBest offset [a, b] = some b) := by
  have hfilter : [a, b].filter (fun r => r.containsPos offset) = [a, b] := by
    simp [List.filter, ha, hb]
  unfold pickBest
  rw [hfilter]
  refine ⟨?_, ?_, ?_, ?_⟩
  · intro h
    have hc : 0 < compareRanges a b := (compareRanges_pos_iff a b).mpr (Or.inl h)
    simp [sortCands, hc]
  · intro h
    have hc : ¬ 0 < compareRanges a b := by
      rw [compareRanges_pos_iff]; omega
    simp [sortCands, hc]
  · intro h1 h2
    have hc : ¬ 0 < compareRanges a b := by
      rw [compareRanges_pos_iff]; omega
    simp [sortCands, hc]
  · intro h1 h2
    have hc : 0 < compareRanges a b := (compareRanges_pos_iff a b).mpr (Or.inr ⟨h1, h2⟩)
    simp [sortCands, hc]

/-- C5: when neither matcher yields a span containing a cursor's position,
the command's result slot for that cursor equals the input selection (and
the command is a total function, so no error is raised). -/
theorem spec_C5 (text : List Char) (sels : List Selection) (k : Nat) (sel : Selection)
    (hsel : sels[k]? = some sel)
    (ht : ∀ r, findEnclosingTags text sel.active = some r →
      r.containsPos sel.active = false)
    (hb : ∀ r, findEnclosingBrackets text sel.active = some r →
      r.containsPos sel.active = false) :
    (runCommand text sels)[k]? = some sel := by
  have hone : selectEnclosing text sel = sel := by
    unfold selectEnclosing pickBest candidatesOf
    have h1 : (findEnclosingTags text sel.active).toList.filter
        (fun r => r.containsPos sel.active) = [] := by
      cases hcase : findEnclosingTags text sel.active with
      | none => rfl
      | some r => simp [Option.toList, List.filter, ht r hcase]
    have h2 : (findEnclosingBrackets text sel.active).toList.filter
        (fun r => r.containsPos sel.active) = [] := by
      cases hcase : findEnclosingBrackets text sel.active with
      | none => rfl
      | some r => simp [Option.toList, List.filter, hb r hcase]
    rw [List.filter_append, h1, h2]
    rfl
  unfold runCommand
  rw [List.getElem?_map, hsel]
  simp [hone]

/-- C6: an opening delimiter (resp. recorded opening tag) whose forward scan
finds no balanced close leaves the running best unchanged — it produces no
candidate and is silently skipped — and on the unbalanced text `(a` with the
cursor after `a` the bracket matcher returns no match. -/
theorem spec_C6 :
    (∀ (text : List Char) (offset i : Nat) (best : Option Range) (pr : Char × Char),
      pr ∈ brackets → text[i]? = some pr.1 →
      findClose text pr.1 pr.2 (i + 1) 1 = none →
      bracketStep text offset i best = best) ∧
    (∀ (text : List Char) (offset : Nat) (t : TagInfo) (best : Option Range),
      tagCloseSearch text t.name t.tagEnd 1 = none →
      tagStep text offset t best = best) ∧
    findEnclosingBrackets (String.toList "(a") 2 = none := by
  refine ⟨?_, ?_, by decide⟩
  · intro text offset i best pr hpr htext hclose
    have hfind : brackets.find? (fun q => q.1 == pr.1) = some pr := by
      fin_cases hpr <;> decide
    unfold bracketStep
    simp [htext, hfind, hclose]
  · intro text offset t best hclose
    unfold tagStep
    simp [hclose]

/-- C7: the tag matcher returns a recorded tag's candidate interior and no
recorded tag produces a later-starting (more deeply nested) candidate; on
`<a><b>text</b></a>` with the cursor inside `text` it returns the interior
of `<b>...</b>`, on `<div><div>x</div></div>` with the cursor at `x` it
returns the inner `<div>` interior, and with the cursor at the boundary
between the two opening `<div>` tags it returns the outer interior. -/
theorem spec_C7 (text : List Char) (offset : Nat) :
    (∀ r, findEnclosingTags text offset = some r →
      (∃ t ∈ collectTags text offset, tagCand text offset t = some r) ∧
        ∀ t ∈ collectTags text offset, ∀ r', tagCand text offset t = some r' →
          r'.start ≤ r.start) ∧
    findEnclosingTags (String.toList "<a><b>text</b></a>") 7 = some ⟨6, 10⟩ ∧
    findEnclosingTags (String.toList "<div><div>x</div></div>") 10 = some ⟨10, 11⟩ ∧
    findEnclosingTags (String.toList "<div><div>x</div></div>") 5 = some ⟨5, 17⟩ := by
  refine ⟨findEnclosingTags_some text offset, ?_, ?_, ?_⟩ <;> decide

/-- C8: both matchers are pure functions of the pair (text, offset): in any
run of queries, two slots holding the same query produce the same pair of
matcher results. -/
theorem spec_C8 (qs : List (List Char × Nat)) (i j : Nat)
    (h : qs[i]? = qs[j]?) :
    (qs.map runMatchers)[i]? = (qs.map runMatchers)[j]? := by
  simp [List.getElem?_map, h]

/-- C9: a returned span contains the offset inclusively on both ends, so a
cursor on an opening bracket never selects that pair's interior (the
returned span starts at or before the cursor, never at `offset + 1`), a
cursor strictly before a recorded tag's interior start never selects that
tag's interior, and a cursor exactly at a span's end offset (immediately
before the closing delimiter or closing tag) is accepted as contained. -/
theorem spec_C9 (text : List Char) (offset : Nat) :
    (∀ r, findEnclosingBrackets text offset = some r →
      r.start ≤ offset ∧ offset ≤ r.stop ∧ r.start ≠ offset + 1) ∧
    (∀ r t, findEnclosingTags text offset = some r → t ∈ collectTags text offset →
      offset < t.tagEnd → r.start ≠ t.tagEnd) ∧
    findEnclosingBrackets (String.toList "(x)") 2 = some ⟨1, 2⟩ ∧
    findEnclosingBrackets (String.toList "(x)") 0 = none ∧
    findEnclosingTags (String.toList "<a>x</a>") 4 = some ⟨3, 4⟩ ∧
    findEnclosingTags (String.toList "<a>x</a>") 1 = none := by
  refine ⟨?_, ?_, by decide, by decide, by decide, by decide⟩
  · intro r h
    obtain ⟨h1, h2⟩ := (containsPos_true_iff r offset).mp
      (findEnclosingBrackets_contains text offset r h)
    exact ⟨h1, h2, by omega⟩
  · intro r t h ht hlt
    have h1 := ((containsPos_true_iff r offset).mp
      (findEnclosingTags_contains text offset r h)).1
    omega

/-- C10: the command replaces a cursor's selection exactly when a matcher
returns a span: every returned span contains the cursor, so the containment
filter discards no candidate, and on success the new selection is the
interior returned by one of the two matchers. -/
theorem spec_C10 (text : List Char) (sel : Selection) :
    ((candidatesOf text sel.active).filter (fun r => r.containsPos sel.active)
      = candidatesOf text sel.active) ∧
    (findEnclosingTags text sel.active = none →
      findEnclosingBrackets text sel.active = none →
      selectEnclosing text sel = sel) ∧
    (∀ r, findEnclosingTags text sel.active = some r ∨
        findEnclosingBrackets text sel.active = some r →
      ∃ r', (findEnclosingTags text sel.active = some r' ∨
          findEnclosingBrackets text sel.active = some r') ∧
        selectEnclosing text sel = ⟨r'.start, r'.stop⟩) := by
  have hfilter : (candidatesOf text sel.active).filter
      (fun r => r.containsPos sel.active) = candidatesOf text sel.active := by
    unfold candidatesOf
    cases ht : findEnclosingTags text sel.active with
    | none =>
      cases hb : findEnclosingBrackets text sel.active with
      | none => rfl
      | some r2 =>
        simp [Option.toList, List.filter, findEnclosingBrackets_contains text _ r2 hb]
    | some r1 =>
      cases hb : findEnclosingBrackets text sel.active with
      | none =>
        simp [Option.toList, List.filter, findEnclosingTags_contains text _ r1 ht]
      | some r2 =>
        simp [Option.toList, List.filter, findEnclosingTags_contains text _ r1 ht,
          findEnclosingBrackets_contains text _ r2 hb]
  refine ⟨hfilter, ?_, ?_⟩
  · intro ht hb
    unfold selectEnclosing pickBest candidatesOf
    rw [ht, hb]
    rfl
  · intro r hr
    have hne : candidatesOf text sel.active ≠ [] := by
      unfold candidatesOf
      rcases hr with h | h <;> rw [h] <;> simp [Option.toList]
    obtain ⟨x, hx, hhead⟩ := sortCands_head_mem (candidatesOf text sel.active) hne
    refine ⟨x, ?_, ?_⟩
    · unfold candidatesOf at hx
      rcases List.mem_append.mp hx with h1 | h1
      · left
        cases hcase : findEnclosingTags text sel.active with
        | none => rw [hcase] at h1; simp [Option.toList] at h1
        | some r1 => rw [hcase] at h1; simp [Option.toList] at h1; rw [h1]
      · right
        cases hcase : findEnclosingBrackets text sel.active with
        | none => rw [hcase] at h1; simp [Option.toList] at h1
        | some r1 => rw [hcase] at h1; simp [Option.toList] at h1; rw [h1]
    · unfold selectEnclosing pickBest
      rw [hfilter, hhead]

/-! ## Witnesses: the claim theorems applied at concrete inputs -/

theorem spec_C1_witness :
    ((1 : Nat) ≤ 1 ∧ (1 : Nat) ≤ 2 ∧
      ∃ pr, pr ∈ brackets ∧ (0 : Nat) < 1 ∧ (String.toList "(x)")[1 - 1]? = some pr.1 ∧
        findClose (String.toList "(x)") pr.1 pr.2 1 1 = some 2 ∧
        (String.toList "(x)")[2]? = some pr.2) ∧
    ((3 : Nat) ≤ 4 ∧ (4 : Nat) ≤ 4 ∧
      ∃ p nm, matchOpenAt (String.toList "<a>x</a>") p = some (nm, 3) ∧
        tagCloseSearch (String.toList "<a>x</a>") nm 3 1 = some 4 ∧
        matchCloseAt (String.toList "<a>x</a>") nm 4 = true) :=
  ⟨(spec_C1 (String.toList "(x)") 1).1 ⟨1, 2⟩ (by decide),
   (spec_C1 (String.toList "<a>x</a>") 4).2 ⟨3, 4⟩ (by decide)⟩

theorem spec_C2_witness :
    ∃ i, bracketCandAt (String.toList "{ [ ( x ) ] }") 6 i = some ⟨5, 8⟩ ∧
      ∀ j, i < j → bracketCandAt (String.toList "{ [ ( x ) ] }") 6 j = none :=
  (spec_C2 (String.toList "{ [ ( x ) ] }") 6).1 ⟨5, 8⟩ (by decide)

theorem spec_C3_witness :
    matchOpenAt (String.toList "<a>x<ab></a>") 4 ≠ some (String.toList "a", 8) :=
  spec_C3.2.2.2.1 4 (by decide) (by decide) 8 (by decide)

theorem spec_C4_witness :
    ((1 : Nat) < 2 → pickBest 3 [⟨1, 5⟩, ⟨2, 4⟩] = some ⟨2, 4⟩) ∧
    ((2 : Nat) < 1 → pickBest 3 [⟨1, 5⟩, ⟨2, 4⟩] = some ⟨1, 5⟩) ∧
    ((1 : Nat) = 2 → (5 : Nat) ≤ 4 → pickBest 3 [⟨1, 5⟩, ⟨2, 4⟩] = some ⟨1, 5⟩) ∧
    ((1 : Nat) = 2 → (4 : Nat) < 5 → pickBest 3 [⟨1, 5⟩, ⟨2, 4⟩] = some ⟨2, 4⟩) :=
  spec_C4 ⟨1, 5⟩ ⟨2, 4⟩ 3 (by decide) (by decide)

theorem spec_C5_witness :
    (runCommand (String.toList "abc") [⟨0, 1⟩])[0]? = some ⟨0, 1⟩ :=
  spec_C5 (String.toList "abc") [⟨0, 1⟩] 0 ⟨0, 1⟩ rfl
    (fun r h => Option.noConfusion (show (none : Option Range) = some r from h))
    (fun r h => Option.noConfusion (show (none : Option Range) = some r from h))

theorem spec_C6_witness :
    bracketStep (String.toList "(a") 2 0 none = none ∧
    tagStep (String.toList "(a") 2 ⟨0, String.toList "a", 3⟩ none = none :=
  ⟨spec_C6.1 (String.toList "(a") 2 0 none ('(', ')') (by decide) (by decide) (by decide),
   spec_C6.2.1 (String.toList "(a") 2 ⟨0, String.toList "a", 3⟩ none (by decide)⟩

theorem spec_C7_witness :
    (∃ t ∈ collectTags (String.toList "<a><b>text</b></a>") 7,
      tagCand (String.toList "<a><b>text</b></a>") 7 t = some ⟨6, 10⟩) ∧
      ∀ t ∈ collectTags (String.toList "<a><b>text</b></a>") 7,
        ∀ r', tagCand (String.toList "<a><b>text</b></a>") 7 t = some r' →
          r'.start ≤ (6 : Nat) :=
  (spec_C7 (String.toList "<a><b>text</b></a>") 7).1 ⟨6, 10⟩ (by decide)

theorem spec_C8_witness :
    ([(String.toList "(x)", 1), (String.toList "(x)", 1)].map runMatchers)[0]?
      = ([(String.toList "(x)", 1), (String.toList "(x)", 1)].map runMatchers)[1]? :=
  spec_C8 [(String.toList "(x)", 1), (String.toList "(x)", 1)] 0 1 rfl

theorem spec_C9_witness :
    ((1 : Nat) ≤ 2 ∧ (2 : Nat) ≤ 2 ∧ (1 : Nat) ≠ 2 + 1) ∧ (5 : Nat) ≠ 10 :=
  ⟨(spec_C9 (String.toList "(x)") 2).1 ⟨1, 2⟩ (by decide),
   (spec_C9 (String.toList "<div><div>x</div></div>") 5).2.1 ⟨5, 17⟩
     ⟨5, String.toList "div", 10⟩ (by decide) (by decide) (by decide)⟩

theorem spec_C10_witness :
    ∃ r', (findEnclosingTags (String.toList "(x)") 1 = some r' ∨
        findEnclosingBrackets (String.toList "(x)") 1 = some r') ∧
      selectEnclosing (String.toList "(x)") ⟨0, 1⟩ = ⟨r'.start, r'.stop⟩ :=
  (spec_C10 (String.toList "(x)") ⟨0, 1⟩).2.2 ⟨1, 2⟩ (Or.inr (by decide))

end BracketMaster
